import Mathlib

/-
Verification of `resize_and_merge.py` (Python-Image-Merger).

The program has two functions:
  * `merge_images_in_folder` (the Batcher): globs an input directory, groups
    paths four at a time, pads the last group with synthesized blank "white"
    filler files, calls the Compositor on each group and saves the result as
    `merged_<g>.jpg` in the output directory;
  * `resize_and_merge` (the Compositor): opens four images, rotates landscape
    images to portrait, resizes each to fit its quarter cell with the uniform
    scale `min(cell_w / w, cell_h / h)`, pads with a border and pastes the
    four results onto a fresh page of `final_size`.

Modelling choices of this shallow embedding:
  * An image is modelled by its dimensions (`PImage`): every claim under
    verification is about sizes, positions, file counts and file lifetimes,
    none about pixel values, and pixel results of LANCZOS resampling are not
    specifiable anyway.  `Image.new`, `rotate(90, expand=True)`,
    `resize`, `ImageOps.expand` and `paste` are modelled at that level:
    rotation by a quarter turn with an expanded canvas swaps the dimensions,
    `ImageOps.expand` adds the border widths, and `Image.paste` mutates
    pixels of the base image in place (clipping at its bounds) so it leaves
    the base dimensions unchanged.
  * Python floats are modelled by exact rationals, and Python `int()` by
    truncation toward zero (`pytrunc`).
  * The filesystem is an association list from `FPath` to image content,
    threaded explicitly through both functions; `Image.open` is a lookup
    (failing reads propagate as `Option.none`, like the uncaught Python
    exception), `save` an overwriting write, `os.remove` a removal.
  * Paths are the inductive `FPath`: the program writes into the output
    directory (`merged_<g>.jpg` and `white_temp.jpg`) and reads entries of
    the input directory; with the program's distinct default directories
    these three families of paths never collide, which the constructors
    capture.  Input entries keep their directory-listing names as strings.
  * `glob.glob(os.path.join(input_folder, '*'))` returns the entries of the
    directory in listing order; per the documented semantics of Python's
    `glob`, the pattern `*` does not match names that begin with a dot
    (hidden files).  `globStar` embeds exactly that.
  * The `for i in range(0, len(image_paths), 4)` loop with its slice
    `image_paths[i:i+4]` is embedded by chunking the path list into the same
    consecutive slices (`chunk4`) and recursing over them, the group index
    `g` standing for `i // 4`.  The `while len(paths_slice) < 4` padding
    loop appends to a slice of length at least 1, hence runs at most three
    times; it is embedded with a fuel of 4 (`padLoop`), which is enough even
    for an empty slice.
  * Image decoding happens on files with positive dimensions and a positive
    page size (Python would raise `ZeroDivisionError` on a zero dimension
    and PIL cannot produce one); theorems that quantify over runs carry
    these positivity facts as hypotheses to stay inside the faithful domain,
    and geometric theorems additionally assume the border fits the page
    (`2 * border_size ≤ width`, `border_size ≤ height`), since Python's
    subtraction would otherwise go negative where natural subtraction
    truncates.
-/

/- An image, modelled by its dimensions. -/
structure PImage where
  width : ℕ
  height : ℕ
deriving DecidableEq

/- `Image.new(mode RGB, final_size, border_color)`: a fresh raster of the given
size (the fill color is not part of the dimensions model). -/
def newImage (size : ℕ × ℕ) : PImage :=
  PImage.mk size.1 size.2

/- A border specification for `ImageOps.expand`, in PIL order
`(left, top, right, bottom)`. -/
structure Border where
  left : ℕ
  top : ℕ
  right : ℕ
  bottom : ℕ
deriving DecidableEq

/- Files the program touches: entries of the input directory (by listing
name), and the two kinds of files it writes into the output directory. -/
inductive FPath where
  | input (name : String)
  | merged (g : ℕ)
  | whiteTemp
deriving DecidableEq

/- The filesystem: an association list from paths to decoded image content.
Reads return the first binding. -/
abbrev FS := List (FPath × PImage)

def fsRead : FS → FPath → Option PImage
  | [], _ => none
  | e :: rest, q => if e.1 = q then some e.2 else fsRead rest q

/- `os.remove`: drop every binding of the path. -/
def fsRemove : FS → FPath → FS
  | [], _ => []
  | e :: rest, p => if e.1 = p then fsRemove rest p else e :: fsRemove rest p

/- `save`: an overwriting write of the path. -/
def fsWrite (fs : FS) (p : FPath) (v : PImage) : FS :=
  fsRemove fs p ++ [(p, v)]

/- A directory-listing name is hidden when it begins with a dot. -/
def hiddenName (n : String) : Bool :=
  match n.data with
  | c :: _ => c == '.'
  | [] => false

/- `glob.glob(os.path.join(input_folder, '*'))`: the entries of the input
directory, in listing order, except those whose name begins with a dot
(Python's `glob` treats them as hidden and `*` does not match them). -/
def globStar (entries : List String) : List String :=
  entries.filter (fun n => !hiddenName n)

/- Python `int()`: truncation toward zero. -/
def pytrunc (q : ℚ) : ℤ :=
  if 0 ≤ q then ⌊q⌋ else -⌊-q⌋

/- Line 62: `quarter_size_single_border = ((final_size[0] - border_size) // 2,
final_size[1] // 2)`. -/
def quarterSingle (final_size : ℕ × ℕ) (border_size : ℕ) : ℕ × ℕ :=
  ((final_size.1 - border_size) / 2, final_size.2 / 2)

/- Line 63: `quarter_size_double_border = ((final_size[0] - 2 * border_size)
// 2, (final_size[1] - border_size) // 2)`. -/
def quarterDouble (final_size : ℕ × ℕ) (border_size : ℕ) : ℕ × ℕ :=
  ((final_size.1 - 2 * border_size) / 2, (final_size.2 - border_size) / 2)

/- Lines 71-72: `if img.width > img.height: img = img.rotate(90, expand=True)`.
A quarter-turn rotation with an expanded canvas swaps the dimensions. -/
def rotateIfLandscape (img : PImage) : PImage :=
  if img.width > img.height then PImage.mk img.height img.width else img

/- Line 75: `quarter_size = quarter_size_double_border if idx % 2 else
quarter_size_single_border` (Python truthiness: `idx % 2` is true when
nonzero). -/
def quarterForIndex (qs qd : ℕ × ℕ) (idx : ℕ) : ℕ × ℕ :=
  if idx % 2 = 0 then qs else qd

/- Lines 78-82: the resize of one (already rotated) image.
`width_ratio = quarter_size[0] / img.width`,
`height_ratio = quarter_size[1] / img.height`,
`resize_ratio = min(width_ratio, height_ratio)`,
`new_size = (int(img.width * resize_ratio), int(img.height * resize_ratio))`.
Floats are modelled by exact rationals and `int()` by `pytrunc`. -/
def newSize (img : PImage) (quarter : ℕ × ℕ) : ℕ × ℕ :=
  let width_scale : ℚ := (quarter.1 : ℚ) / (img.width : ℚ)
  let height_scale : ℚ := (quarter.2 : ℚ) / (img.height : ℚ)
  let resize_scale : ℚ := min width_scale height_scale
  ((pytrunc ((img.width : ℚ) * resize_scale)).toNat,
   (pytrunc ((img.height : ℚ) * resize_scale)).toNat)

/- Lines 88-91: `border=(0, 0, border_size, border_size)` when `idx % 2` is
truthy, else `border=(0, 0, border_size, 0)`. -/
def borderForIndex (border_size : ℕ) (idx : ℕ) : Border :=
  if idx % 2 = 0 then Border.mk 0 0 border_size 0
  else Border.mk 0 0 border_size border_size

/- `ImageOps.expand(img, border=(l, t, r, b))`: grows the canvas by the
border widths on each side. -/
def expandBorder (img : PImage) (b : Border) : PImage :=
  PImage.mk (b.left + img.width + b.right) (b.top + img.height + b.bottom)

/- The size, after rotation and resize, of the sub-image of index `idx`
(lines 71-85, before the border is added). -/
def resizedSize (final_size : ℕ × ℕ) (border_size : ℕ) (idx : ℕ)
    (img0 : PImage) : ℕ × ℕ :=
  newSize (rotateIfLandscape img0)
    (quarterForIndex (quarterSingle final_size border_size)
      (quarterDouble final_size border_size) idx)

/- Lines 68-93: the whole per-image transformation of the Compositor loop:
rotate landscape input, resize to the parity-selected quarter cell, add the
parity-selected border. -/
def processImage (final_size : ℕ × ℕ) (border_size : ℕ) (idx : ℕ)
    (img0 : PImage) : PImage :=
  expandBorder
    (PImage.mk (resizedSize final_size border_size idx img0).1
      (resizedSize final_size border_size idx img0).2)
    (borderForIndex border_size idx)

/- `final_image.paste(img, pos)` mutates pixels of the base in place,
clipping at its bounds; the base dimensions are unchanged. -/
def paste (base : PImage) (img : PImage) (pos : ℕ × ℕ) : PImage :=
  base

/- Lines 99-102: the four paste anchors.
index 0 -> (0, 0); index 1 -> (single.1 + border, 0);
index 2 -> (0, single.2); index 3 -> (single.1 + border, double.2 + border). -/
def pasteAnchor (final_size : ℕ × ℕ) (border_size : ℕ) (idx : ℕ) : ℕ × ℕ :=
  match idx with
  | 0 => (0, 0)
  | 1 => ((quarterSingle final_size border_size).1 + border_size, 0)
  | 2 => (0, (quarterSingle final_size border_size).2)
  | _ => ((quarterSingle final_size border_size).1 + border_size,
          (quarterDouble final_size border_size).2 + border_size)

/- The `Image.open` phase of the Compositor loop: read each path in order;
a failing open aborts the run. -/
def openImages (fs : FS) : List FPath → Option (List PImage)
  | [] => some []
  | p :: rest =>
    match fsRead fs p with
    | none => none
    | some img =>
      match openImages fs rest with
      | none => none
      | some imgs => some (img :: imgs)

/- Lines 47-104, `resize_and_merge`: open every path, transform each image
by its index, allocate the page and paste the first four transformed images
at the fixed anchors.  The filesystem is threaded through explicitly: the
function only reads from it.  Fewer than four processed images is the
Python `IndexError` at line 99-102 (`none`); extra images are ignored,
as in the source. -/
def resize_and_merge (fs : FS) (image_paths : List FPath)
    (final_size : ℕ × ℕ) (border_size : ℕ) : Option (FS × PImage) :=
  match openImages fs image_paths with
  | none => none
  | some imgs =>
    let images := imgs.enum.map
      (fun e => processImage final_size border_size e.1 e.2)
    match images.get? 0, images.get? 1, images.get? 2, images.get? 3 with
    | some i0, some i1, some i2, some i3 =>
      let final_image := newImage final_size
      let final_image := paste final_image i0 (pasteAnchor final_size border_size 0)
      let final_image := paste final_image i1 (pasteAnchor final_size border_size 1)
      let final_image := paste final_image i2 (pasteAnchor final_size border_size 2)
      let final_image := paste final_image i3 (pasteAnchor final_size border_size 3)
      some (fs, final_image)
    | _, _, _, _ => none

/- The slices `image_paths[i:i+4]` of the loop at line 24, in order. -/
def chunk4 {α : Type} : List α → List (List α)
  | [] => []
  | [a] => [[a]]
  | [a, b] => [[a, b]]
  | [a, b, c] => [[a, b, c]]
  | a :: b :: c :: d :: rest => [a, b, c, d] :: chunk4 rest

/- Lines 29-33, the padding loop: `while len(paths_slice) < 4:` create the
white filler image, save it to `white_temp.jpg` in the output folder, append
that path to the slice.  The loop runs at most `4 - len` times, so a fuel of
4 always suffices. -/
def padLoop (final_size : ℕ × ℕ) : ℕ → FS → List FPath → FS × List FPath
  | 0, fs, slice => (fs, slice)
  | fuel + 1, fs, slice =>
    if slice.length < 4 then
      padLoop final_size fuel
        (fsWrite fs FPath.whiteTemp (newImage final_size))
        (slice ++ [FPath.whiteTemp])
    else (fs, slice)

/- Lines 24-42, the body of the Batcher loop over the groups: pad the slice,
composite it, save the page as `merged_<g>.jpg`, then (line 41-42) remove the
filler only `if len(paths_slice) < 4` — testing the slice after it was
padded, exactly as the source does. -/
def batchLoop (final_size : ℕ × ℕ) (border_size : ℕ) (fs : FS) :
    List (List FPath) → ℕ → Option FS
  | [], _ => some fs
  | slice :: rest, g =>
    match resize_and_merge (padLoop final_size 4 fs slice).1
        (padLoop final_size 4 fs slice).2 final_size border_size with
    | none => none
    | some x =>
      let fs3 := fsWrite x.1 (FPath.merged g) x.2
      let fs4 :=
        if (padLoop final_size 4 fs slice).2.length < 4 then
          fsRemove fs3 FPath.whiteTemp
        else fs3
      batchLoop final_size border_size fs4 rest (g + 1)

/- The observable outcome of a run: the files on disk and whether the output
directory exists. -/
structure RunResult where
  files : FS
  outDirExists : Bool
deriving DecidableEq

/- Lines 6-42, `merge_images_in_folder`: glob the input directory (the
argument lists its entries, with their decoded contents, in listing order),
create the output directory with `os.makedirs(..., exist_ok=True)` (total in
the prior state `outDirWasThere` of the directory), then run the group loop
with the group index standing for `i // 4`. -/
def merge_images_in_folder (dirEntries : List (String × PImage))
    (outDirWasThere : Bool) (final_size : ℕ × ℕ) (border_size : ℕ) :
    Option RunResult :=
  match batchLoop final_size border_size
      (dirEntries.map (fun e => (FPath.input e.1, e.2)))
      (chunk4 ((globStar (dirEntries.map Prod.fst)).map FPath.input)) 0 with
  | none => none
  | some fs => some (RunResult.mk fs true)

/- Half-open axis-aligned rectangles of the page, for layout statements. -/
structure Rect where
  x : ℕ
  y : ℕ
  w : ℕ
  h : ℕ
deriving DecidableEq

def Rect.mem (r : Rect) (p : ℕ × ℕ) : Prop :=
  r.x ≤ p.1 ∧ p.1 < r.x + r.w ∧ r.y ≤ p.2 ∧ p.2 < r.y + r.h

instance (r : Rect) (p : ℕ × ℕ) : Decidable (Rect.mem r p) :=
  inferInstanceAs (Decidable (r.x ≤ p.1 ∧ p.1 < r.x + r.w ∧ r.y ≤ p.2 ∧ p.2 < r.y + r.h))

/- The region of the page covered by the pasted bordered sub-image of index
`idx` (its anchor from lines 99-102, its size from lines 68-93). -/
def subRegion (final_size : ℕ × ℕ) (border_size : ℕ) (idx : ℕ)
    (img0 : PImage) : Rect :=
  Rect.mk (pasteAnchor final_size border_size idx).1
    (pasteAnchor final_size border_size idx).2
    (processImage final_size border_size idx img0).width
    (processImage final_size border_size idx img0).height

/- The region covered by the resized image content alone, border padding
excluded. -/
def contentRegion (final_size : ℕ × ℕ) (border_size : ℕ) (idx : ℕ)
    (img0 : PImage) : Rect :=
  Rect.mk (pasteAnchor final_size border_size idx).1
    (pasteAnchor final_size border_size idx).2
    (resizedSize final_size border_size idx img0).1
    (resizedSize final_size border_size idx img0).2

/- The quadrant of the page assigned to index `idx`, from the spec's layout
description: the page is split vertically at the right column's paste
abscissa `single.1 + border`, the left column is split horizontally at
index 2's paste ordinate `single.2`, and the right column at index 3's
paste ordinate `double.2 + border`. -/
def quadrant (final_size : ℕ × ℕ) (border_size : ℕ) (idx : ℕ) : Rect :=
  match idx with
  | 0 => Rect.mk 0 0
      ((quarterSingle final_size border_size).1 + border_size)
      (quarterSingle final_size border_size).2
  | 1 => Rect.mk ((quarterSingle final_size border_size).1 + border_size) 0
      (final_size.1 - ((quarterSingle final_size border_size).1 + border_size))
      ((quarterDouble final_size border_size).2 + border_size)
  | 2 => Rect.mk 0 (quarterSingle final_size border_size).2
      ((quarterSingle final_size border_size).1 + border_size)
      (final_size.2 - (quarterSingle final_size border_size).2)
  | _ => Rect.mk ((quarterSingle final_size border_size).1 + border_size)
      ((quarterDouble final_size border_size).2 + border_size)
      (final_size.1 - ((quarterSingle final_size border_size).1 + border_size))
      (final_size.2 - ((quarterDouble final_size border_size).2 + border_size))

/- A concrete four-image filesystem and its path list, used to witness the
Compositor theorems on explicit inputs. -/
def demoFS : FS :=
  [(FPath.input "a.jpg", PImage.mk 100 150),
   (FPath.input "b.jpg", PImage.mk 200 100),
   (FPath.input "c.jpg", PImage.mk 120 300),
   (FPath.input "d.jpg", PImage.mk 150 150)]

def demoPaths : List FPath :=
  [FPath.input "a.jpg", FPath.input "b.jpg", FPath.input "c.jpg",
   FPath.input "d.jpg"]

/- ------------------------------------------------------------------ -/
/- Arithmetic lemmas about the resize computation.                     -/
/- ------------------------------------------------------------------ -/

/- Closed form of `newSize` over the naturals: with exact arithmetic, the
binding ratio's dimension lands exactly on the cell bound and the other
dimension is the floored cross-multiplied value. -/
theorem newSize_eq (img : PImage) (q : ℕ × ℕ) (hw : 0 < img.width)
    (hh : 0 < img.height) :
    newSize img q =
      if q.1 * img.height ≤ q.2 * img.width
      then (q.1, img.height * q.1 / img.width)
      else (img.width * q.2 / img.height, q.2) := by
  obtain ⟨w, h⟩ := img
  obtain ⟨qw, qh⟩ := q
  simp only [newSize]
  have hw' : (0 : ℚ) < (w : ℚ) := by exact_mod_cast hw
  have hh' : (0 : ℚ) < (h : ℚ) := by exact_mod_cast hh
  by_cases hcmp : qw * h ≤ qh * w
  · have hmin : min ((qw : ℚ) / (w : ℚ)) ((qh : ℚ) / (h : ℚ)) = (qw : ℚ) / (w : ℚ) := by
      apply min_eq_left
      rw [div_le_div_iff hw' hh']
      exact_mod_cast hcmp
    rw [if_pos hcmp]
    simp only [hmin, Prod.mk.injEq]
    constructor
    · have e1 : (w : ℚ) * ((qw : ℚ) / (w : ℚ)) = ((qw : ℕ) : ℚ) := by
        field_simp
      rw [e1]
      unfold pytrunc
      rw [if_pos (by positivity), Int.floor_natCast, Int.toNat_natCast]
    · have e2 : (h : ℚ) * ((qw : ℚ) / (w : ℚ)) = ((h * qw : ℕ) : ℚ) / ((w : ℕ) : ℚ) := by
        push_cast
        ring
      rw [e2]
      unfold pytrunc
      rw [if_pos (by positivity), Rat.floor_natCast_div_natCast, ← Int.natCast_div,
        Int.toNat_natCast]
  · have hcmp' : (qh : ℚ) / (h : ℚ) ≤ (qw : ℚ) / (w : ℚ) := by
      rw [div_le_div_iff hh' hw']
      have := le_of_not_le hcmp
      exact_mod_cast Nat.le_of_lt (Nat.lt_of_not_le hcmp)
    have hmin : min ((qw : ℚ) / (w : ℚ)) ((qh : ℚ) / (h : ℚ)) = (qh : ℚ) / (h : ℚ) :=
      min_eq_right hcmp'
    rw [if_neg hcmp]
    simp only [hmin, Prod.mk.injEq]
    constructor
    · have e1 : (w : ℚ) * ((qh : ℚ) / (h : ℚ)) = ((w * qh : ℕ) : ℚ) / ((h : ℕ) : ℚ) := by
        push_cast
        ring
      rw [e1]
      unfold pytrunc
      rw [if_pos (by positivity), Rat.floor_natCast_div_natCast, ← Int.natCast_div,
        Int.toNat_natCast]
    · have e2 : (h : ℚ) * ((qh : ℚ) / (h : ℚ)) = ((qh : ℕ) : ℚ) := by
        field_simp
      rw [e2]
      unfold pytrunc
      rw [if_pos (by positivity), Int.floor_natCast, Int.toNat_natCast]

/- The resized dimensions never exceed the cell, and the integer rounding
moves the aspect ratio by less than one unit in cross-multiplied form. -/
theorem newSize_spec (img : PImage) (q : ℕ × ℕ) (hw : 0 < img.width)
    (hh : 0 < img.height) :
    (newSize img q).1 ≤ q.1 ∧ (newSize img q).2 ≤ q.2 ∧
    (newSize img q).1 * img.height < (newSize img q).2 * img.width + img.width ∧
    (newSize img q).2 * img.width < (newSize img q).1 * img.height + img.height := by
  rw [newSize_eq img q hw hh]
  obtain ⟨w, h⟩ := img
  obtain ⟨qw, qh⟩ := q
  simp only
  by_cases hcmp : qw * h ≤ qh * w
  · rw [if_pos hcmp]
    simp only
    have hdivle : h * qw / w * w ≤ h * qw := Nat.div_mul_le_self (h * qw) w
    have hdm := Nat.div_add_mod (h * qw) w
    have hmod : h * qw % w < w := Nat.mod_lt (h * qw) hw
    refine ⟨le_refl qw, ?_, ?_, ?_⟩
    · calc h * qw / w ≤ qh * w / w := Nat.div_le_div_right (by nlinarith)
        _ = qh := Nat.mul_div_cancel qh hw
    · nlinarith
    · nlinarith
  · rw [if_neg hcmp]
    simp only
    have hcmp2 : qh * w ≤ qw * h := Nat.le_of_lt (Nat.lt_of_not_le hcmp)
    have hdivle : w * qh / h * h ≤ w * qh := Nat.div_mul_le_self (w * qh) h
    have hdm := Nat.div_add_mod (w * qh) h
    have hmod : w * qh % h < h := Nat.mod_lt (w * qh) hh
    refine ⟨?_, le_refl qh, ?_, ?_⟩
    · calc w * qh / h ≤ qw * h / h := Nat.div_le_div_right (by nlinarith)
        _ = qw := Nat.mul_div_cancel qw hh
    · nlinarith
    · nlinarith

/- Rotation swaps or keeps dimensions, so it preserves positivity. -/
theorem rotateIfLandscape_pos (img : PImage) (hw : 0 < img.width)
    (hh : 0 < img.height) :
    0 < (rotateIfLandscape img).width ∧ 0 < (rotateIfLandscape img).height := by
  unfold rotateIfLandscape
  split <;> exact ⟨by assumption, by assumption⟩

/- The resized sub-image of index `idx` fits inside its parity-selected
quarter cell. -/
theorem resizedSize_le (final_size : ℕ × ℕ) (border_size : ℕ) (idx : ℕ)
    (img : PImage) (hw : 0 < img.width) (hh : 0 < img.height) :
    (resizedSize final_size border_size idx img).1 ≤
      (quarterForIndex (quarterSingle final_size border_size)
        (quarterDouble final_size border_size) idx).1 ∧
    (resizedSize final_size border_size idx img).2 ≤
      (quarterForIndex (quarterSingle final_size border_size)
        (quarterDouble final_size border_size) idx).2 := by
  obtain ⟨h1, h2⟩ := rotateIfLandscape_pos img hw hh
  have := newSize_spec (rotateIfLandscape img)
    (quarterForIndex (quarterSingle final_size border_size)
      (quarterDouble final_size border_size) idx) h1 h2
  exact ⟨this.1, this.2.1⟩

/- The dimensions of a processed sub-image: the border adds `border_size` on
the right for every index, and on the bottom only for odd indices. -/
theorem processImage_width (final_size : ℕ × ℕ) (border_size : ℕ) (idx : ℕ)
    (img : PImage) :
    (processImage final_size border_size idx img).width =
      (resizedSize final_size border_size idx img).1 + border_size := by
  unfold processImage expandBorder borderForIndex
  split <;> simp

theorem processImage_height (final_size : ℕ × ℕ) (border_size : ℕ) (idx : ℕ)
    (img : PImage) :
    (processImage final_size border_size idx img).height =
      (resizedSize final_size border_size idx img).2 +
        (if idx % 2 = 0 then 0 else border_size) := by
  unfold processImage expandBorder borderForIndex
  split <;> simp

/- ------------------------------------------------------------------ -/
/- Filesystem lemmas.                                                  -/
/- ------------------------------------------------------------------ -/

theorem fsRead_fsRemove (fs : FS) (p q : FPath) :
    fsRead (fsRemove fs p) q = if q = p then none else fsRead fs q := by
  induction fs with
  | nil => simp [fsRemove, fsRead]
  | cons e rest ih =>
    by_cases h1 : e.1 = p
    · by_cases h2 : q = p
      · subst h2
        simp [fsRemove, fsRead, h1, ih]
      · have h3 : ¬ e.1 = q := fun h => h2 (h.symm.trans h1)
        have h4 : ¬ p = q := fun h => h2 h.symm
        simp [fsRemove, fsRead, h1, h2, h3, h4, ih]
    · by_cases h3 : e.1 = q
      · have h2 : ¬ q = p := fun h => h1 (h3.trans h)
        simp [fsRemove, fsRead, h1, h2, h3, ih]
      · simp [fsRemove, fsRead, h1, h3, ih]

theorem fsRead_append_of_none (l1 l2 : FS) (q : FPath)
    (h : fsRead l1 q = none) : fsRead (l1 ++ l2) q = fsRead l2 q := by
  induction l1 with
  | nil => simp
  | cons e rest ih =>
    by_cases h1 : e.1 = q
    · simp [fsRead, h1] at h
    · simp only [fsRead, h1, if_neg] at h
      simp [fsRead, h1, ih h]

theorem fsRead_append_of_some (l1 l2 : FS) (q : FPath) (v : PImage)
    (h : fsRead l1 q = some v) : fsRead (l1 ++ l2) q = some v := by
  induction l1 with
  | nil => simp [fsRead] at h
  | cons e rest ih =>
    by_cases h1 : e.1 = q
    · simp [fsRead, h1] at h ⊢
      exact h
    · simp only [fsRead, h1, if_neg] at h
      simp [fsRead, h1, ih h]

theorem fsRead_fsWrite (fs : FS) (p : FPath) (v : PImage) (q : FPath) :
    fsRead (fsWrite fs p v) q = if q = p then some v else fsRead fs q := by
  unfold fsWrite
  by_cases h : q = p
  · subst h
    have hnone : fsRead (fsRemove fs q) q = none := by
      rw [fsRead_fsRemove]
      simp
    rw [fsRead_append_of_none _ _ _ hnone]
    simp [fsRead]
  · rw [if_neg h]
    have hread : fsRead (fsRemove fs p) q = fsRead fs q := by
      rw [fsRead_fsRemove, if_neg h]
    by_cases h2 : fsRead (fsRemove fs p) q = none
    · rw [fsRead_append_of_none _ _ _ h2, ← hread, h2]
      have h5 : ¬ p = q := fun hh => h hh.symm
      simp [fsRead, h5]
    · obtain ⟨v2, hv2⟩ := Option.ne_none_iff_exists'.mp h2
      rw [fsRead_append_of_some _ _ _ _ hv2, ← hread, hv2]

/- ------------------------------------------------------------------ -/
/- The padding loop.                                                   -/
/- ------------------------------------------------------------------ -/

theorem padLoop_spec (final_size : ℕ × ℕ) :
    ∀ (fuel : ℕ) (fs : FS) (slice : List FPath), 4 ≤ fuel + slice.length →
    (padLoop final_size fuel fs slice).2 =
      slice ++ List.replicate (4 - slice.length) FPath.whiteTemp ∧
    ∀ q, fsRead (padLoop final_size fuel fs slice).1 q =
      if slice.length < 4 ∧ q = FPath.whiteTemp
      then some (newImage final_size) else fsRead fs q := by
  intro fuel
  induction fuel with
  | zero =>
    intro fs slice hlen
    simp only [Nat.zero_add] at hlen
    have h4 : ¬ slice.length < 4 := by omega
    have hz : 4 - slice.length = 0 := by omega
    constructor
    · simp [padLoop, hz]
    · intro q
      simp [padLoop, h4]
  | succ fuel ih =>
    intro fs slice hlen
    by_cases hlt : slice.length < 4
    · have hstep : padLoop final_size (fuel + 1) fs slice =
        padLoop final_size fuel
          (fsWrite fs FPath.whiteTemp (newImage final_size))
          (slice ++ [FPath.whiteTemp]) := by
        simp [padLoop, hlt]
      obtain ⟨ih1, ih2⟩ := ih (fsWrite fs FPath.whiteTemp (newImage final_size))
        (slice ++ [FPath.whiteTemp]) (by simp; omega)
      constructor
      · rw [hstep, ih1]
        have : 4 - slice.length = (4 - (slice.length + 1)) + 1 := by omega
        rw [List.append_assoc, List.singleton_append]
        rw [this, List.replicate_succ]
        simp
      · intro q
        rw [hstep, ih2 q, fsRead_fsWrite]
        by_cases hq : q = FPath.whiteTemp
        · simp [hq, hlt]
        · simp [hq]
    · constructor
      · have hz : 4 - slice.length = 0 := by omega
        simp [padLoop, hlt, hz]
      · intro q
        simp [padLoop, hlt]

/- ------------------------------------------------------------------ -/
/- The Compositor.                                                     -/
/- ------------------------------------------------------------------ -/

theorem openImages_of_reads (fs : FS) :
    ∀ paths : List FPath, (∀ p ∈ paths, (fsRead fs p).isSome = true) →
    ∃ imgs, openImages fs paths = some imgs ∧ imgs.length = paths.length := by
  intro paths
  induction paths with
  | nil => exact fun _ => ⟨[], rfl, rfl⟩
  | cons p rest ih =>
    intro hread
    have hp := hread p (List.mem_cons_self p rest)
    obtain ⟨img, himg⟩ := Option.isSome_iff_exists.mp hp
    obtain ⟨imgs, himgs, hlen⟩ := ih (fun x hx => hread x (List.mem_cons_of_mem p hx))
    refine ⟨img :: imgs, ?_, by simp [hlen]⟩
    simp [openImages, himg, himgs]

/- Whenever the Compositor succeeds, it returns the filesystem it was given,
unchanged, together with a page that is exactly the freshly allocated
`final_size` canvas. -/
theorem resize_and_merge_some (fs : FS) (paths : List FPath)
    (final_size : ℕ × ℕ) (border_size : ℕ) (r : FS × PImage)
    (h : resize_and_merge fs paths final_size border_size = some r) :
    r = (fs, newImage final_size) := by
  unfold resize_and_merge at h
  split at h
  · exact absurd h (by simp)
  · simp only [] at h
    split at h
    · simp only [paste, Option.some.injEq] at h
      exact h.symm
    · exact absurd h (by simp)

/- The Compositor succeeds on a list of exactly four readable paths. -/
theorem resize_and_merge_success (fs : FS) (paths : List FPath)
    (final_size : ℕ × ℕ) (border_size : ℕ) (hlen : paths.length = 4)
    (hread : ∀ p ∈ paths, (fsRead fs p).isSome = true) :
    resize_and_merge fs paths final_size border_size =
      some (fs, newImage final_size) := by
  obtain ⟨imgs, hopen, hilen⟩ := openImages_of_reads fs paths hread
  rw [hlen] at hilen
  match imgs, hilen with
  | [a0, a1, a2, a3], _ =>
    unfold resize_and_merge
    rw [hopen]
    simp [List.enum, List.enumFrom, List.get?, paste]

/- ------------------------------------------------------------------ -/
/- The group slices.                                                   -/
/- ------------------------------------------------------------------ -/

theorem chunk4_length {α : Type} : ∀ l : List α,
    (chunk4 l).length = (l.length + 3) / 4
  | [] => by simp [chunk4]
  | [_] => by simp [chunk4]
  | [_, _] => by simp [chunk4]
  | [_, _, _] => by simp [chunk4]
  | _ :: _ :: _ :: _ :: rest => by
    have ih := chunk4_length rest
    simp [chunk4, ih]
    omega

theorem chunk4_mem {α : Type} : ∀ l : List α, ∀ s ∈ chunk4 l,
    s.length ≤ 4 ∧ ∀ p ∈ s, p ∈ l
  | [], s => by simp [chunk4]
  | [a], s => by
    intro hs
    simp [chunk4] at hs
    subst hs
    simp
  | [a, b], s => by
    intro hs
    simp [chunk4] at hs
    subst hs
    simp
  | [a, b, c], s => by
    intro hs
    simp [chunk4] at hs
    subst hs
    constructor
    · simp
    · intro p hp
      simp at hp
      simp [hp]
  | a :: b :: c :: d :: rest, s => by
    intro hs
    simp only [chunk4, List.mem_cons] at hs
    rcases hs with hs | hs
    · subst hs
      constructor
      · simp
      · intro p hp
        simp at hp
        simp
        tauto
    · obtain ⟨h1, h2⟩ := chunk4_mem rest s hs
      refine ⟨h1, fun p hp => ?_⟩
      have := h2 p hp
      simp [this]

/- ------------------------------------------------------------------ -/
/- The Batcher loop.                                                   -/
/- ------------------------------------------------------------------ -/

/- Invariant of the group loop: starting from a filesystem whose readable
group paths are input files and which holds no page `merged k` for `k ≥ g`,
the loop succeeds, leaves input files untouched, leaves earlier pages
untouched, and ends with exactly one page per chunk, each of the page
dimensions `final_size`. -/
theorem batchLoop_spec (final_size : ℕ × ℕ) (border_size : ℕ) :
    ∀ chunks : List (List FPath), ∀ (fs : FS) (g : ℕ),
    (∀ s ∈ chunks, s.length ≤ 4 ∧
      ∀ p ∈ s, (∃ n, p = FPath.input n) ∧ (fsRead fs p).isSome = true) →
    (∀ k, g ≤ k → fsRead fs (FPath.merged k) = none) →
    ∃ fs', batchLoop final_size border_size fs chunks g = some fs' ∧
      (∀ n, fsRead fs' (FPath.input n) = fsRead fs (FPath.input n)) ∧
      (∀ k, k < g → fsRead fs' (FPath.merged k) = fsRead fs (FPath.merged k)) ∧
      (∀ k, g ≤ k → fsRead fs' (FPath.merged k) =
        if k < g + chunks.length then some (newImage final_size) else none) := by
  intro chunks
  induction chunks with
  | nil =>
    intro fs g hc hm
    refine ⟨fs, rfl, fun n => rfl, fun k _ => rfl, fun k hk => ?_⟩
    simp only [List.length_nil, Nat.add_zero]
    rw [hm k hk, if_neg (by omega)]
  | cons slice rest ih =>
    intro fs g hc hm
    obtain ⟨hlen4, helems⟩ := hc slice (List.mem_cons_self slice rest)
    obtain ⟨hpad2, hpad1⟩ := padLoop_spec final_size 4 fs slice (by omega)
    have hslice1len : (padLoop final_size 4 fs slice).2.length = 4 := by
      rw [hpad2]
      simp [List.length_append, List.length_replicate]
      omega
    have hread1 : ∀ p ∈ (padLoop final_size 4 fs slice).2,
        (fsRead (padLoop final_size 4 fs slice).1 p).isSome = true := by
      intro p hp
      rw [hpad2] at hp
      rcases List.mem_append.mp hp with hin | hrep
      · obtain ⟨⟨n, rfl⟩, hrd⟩ := helems p hin
        rw [hpad1]
        rw [if_neg (by simp)]
        exact hrd
      · obtain ⟨hne, rfl⟩ := List.mem_replicate.mp hrep
        rw [hpad1, if_pos ⟨by omega, rfl⟩]
        simp
    have hrm := resize_and_merge_success (padLoop final_size 4 fs slice).1
      (padLoop final_size 4 fs slice).2 final_size border_size hslice1len hread1
    have hfs3_input : ∀ n,
        fsRead (fsWrite (padLoop final_size 4 fs slice).1 (FPath.merged g)
          (newImage final_size)) (FPath.input n) = fsRead fs (FPath.input n) := by
      intro n
      rw [fsRead_fsWrite, if_neg (by simp), hpad1, if_neg (by simp)]
    have hfs3_merged_ne : ∀ k, ¬ k = g →
        fsRead (fsWrite (padLoop final_size 4 fs slice).1 (FPath.merged g)
          (newImage final_size)) (FPath.merged k) = fsRead fs (FPath.merged k) := by
      intro k hk
      rw [fsRead_fsWrite, if_neg (by simp [hk]), hpad1, if_neg (by simp)]
    have hfs3_merged_g :
        fsRead (fsWrite (padLoop final_size 4 fs slice).1 (FPath.merged g)
          (newImage final_size)) (FPath.merged g) = some (newImage final_size) := by
      rw [fsRead_fsWrite, if_pos rfl]
    have hc2 : ∀ s ∈ rest, s.length ≤ 4 ∧ ∀ p ∈ s, (∃ n, p = FPath.input n) ∧
        (fsRead (fsWrite (padLoop final_size 4 fs slice).1 (FPath.merged g)
          (newImage final_size)) p).isSome = true := by
      intro s hs
      obtain ⟨hl, he⟩ := hc s (List.mem_cons_of_mem slice hs)
      refine ⟨hl, fun p hp => ?_⟩
      obtain ⟨⟨n, rfl⟩, hrd⟩ := he p hp
      exact ⟨⟨n, rfl⟩, by rw [hfs3_input]; exact hrd⟩
    have hm2 : ∀ k, g + 1 ≤ k →
        fsRead (fsWrite (padLoop final_size 4 fs slice).1 (FPath.merged g)
          (newImage final_size)) (FPath.merged k) = none := by
      intro k hk
      rw [hfs3_merged_ne k (by omega)]
      exact hm k (by omega)
    obtain ⟨fs', hloop, hin, hlt, hge⟩ := ih
      (fsWrite (padLoop final_size 4 fs slice).1 (FPath.merged g)
        (newImage final_size)) (g + 1) hc2 hm2
    refine ⟨fs', ?_, ?_, ?_, ?_⟩
    · show batchLoop final_size border_size fs (slice :: rest) g = some fs'
      simp only [batchLoop]
      rw [hrm]
      simp only [hslice1len]
      rw [if_neg (by omega)]
      exact hloop
    · intro n
      rw [hin n, hfs3_input n]
    · intro k hk
      rw [hlt k (by omega), hfs3_merged_ne k (by omega)]
    · intro k hk
      by_cases hkg : k = g
      · subst hkg
        rw [hlt k (by omega), hfs3_merged_g, if_pos (by simp [List.length_cons])]
      · have hiff : (k < g + 1 + rest.length) ↔ (k < g + (slice :: rest).length) := by
          simp only [List.length_cons]
          omega
        rw [hge k (by omega), if_congr hiff rfl rfl]

/- Every page the group loop has on disk afterwards is a `final_size`
canvas, provided every page already on disk was one. -/
theorem batchLoop_merged_dims (final_size : ℕ × ℕ) (border_size : ℕ) :
    ∀ chunks : List (List FPath), ∀ (fs : FS) (g : ℕ) (fs' : FS),
    batchLoop final_size border_size fs chunks g = some fs' →
    (∀ k img, fsRead fs (FPath.merged k) = some img → img = newImage final_size) →
    ∀ k img, fsRead fs' (FPath.merged k) = some img → img = newImage final_size := by
  intro chunks
  induction chunks with
  | nil =>
    intro fs g fs' h hinv
    simp only [batchLoop, Option.some.injEq] at h
    subst h
    exact hinv
  | cons slice rest ih =>
    intro fs g fs' h hinv
    obtain ⟨hpad2, hpad1⟩ := padLoop_spec final_size 4 fs slice (by omega)
    simp only [batchLoop] at h
    cases hx : resize_and_merge (padLoop final_size 4 fs slice).1
        (padLoop final_size 4 fs slice).2 final_size border_size with
    | none =>
      rw [hx] at h
      simp at h
    | some x =>
      rw [hx] at h
      have hx2 := resize_and_merge_some _ _ _ _ _ hx
      subst hx2
      simp only [] at h
      have hinv3 : ∀ k img,
          fsRead (fsWrite (padLoop final_size 4 fs slice).1 (FPath.merged g)
            (newImage final_size)) (FPath.merged k) = some img →
          img = newImage final_size := by
        intro k img hk
        rw [fsRead_fsWrite] at hk
        by_cases hkg : FPath.merged k = FPath.merged g
        · rw [if_pos hkg] at hk
          exact (Option.some.injEq _ _ ▸ hk).symm
        · rw [if_neg hkg, hpad1, if_neg (by simp)] at hk
          exact hinv k img hk
      apply ih _ (g + 1) fs' h
      intro k img hk
      by_cases hc4 : (padLoop final_size 4 fs slice).2.length < 4
      · rw [if_pos hc4, fsRead_fsRemove, if_neg (by simp)] at hk
        exact hinv3 k img hk
      · rw [if_neg hc4] at hk
        exact hinv3 k img hk

/- ------------------------------------------------------------------ -/
/- The initial filesystem of a run.                                    -/
/- ------------------------------------------------------------------ -/

theorem fs0_read_input (entries : List (String × PImage)) (n : String)
    (hn : n ∈ entries.map Prod.fst) :
    (fsRead (entries.map (fun e => (FPath.input e.1, e.2)))
      (FPath.input n)).isSome = true := by
  induction entries with
  | nil => simp at hn
  | cons e rest ih =>
    simp only [List.map_cons, fsRead]
    by_cases h : e.1 = n
    · simp [h]
    · rw [if_neg (by simp [h])]
      apply ih
      simp only [List.map_cons, List.mem_cons] at hn
      rcases hn with h1 | h1
      · exact absurd h1.symm h
      · exact h1

theorem fs0_read_nonInput (entries : List (String × PImage)) (p : FPath)
    (hp : ∀ n, ¬ p = FPath.input n) :
    fsRead (entries.map (fun e => (FPath.input e.1, e.2))) p = none := by
  induction entries with
  | nil => simp [fsRead]
  | cons e rest ih =>
    simp only [List.map_cons, fsRead]
    rw [if_neg (fun h => hp e.1 h.symm)]
    exact ih

/- ------------------------------------------------------------------ -/
/- The claims.                                                         -/
/- ------------------------------------------------------------------ -/

/-- C7: an input image with width strictly greater than height is rotated a
quarter turn with the canvas expanded (dimensions swapped, nothing cropped),
an image with width at most height is left unchanged, and either way the
processed sub-image entering composition has height at least its width. -/
theorem landscape_rotated_to_portrait (img : PImage) :
    (img.height < img.width →
      rotateIfLandscape img = PImage.mk img.height img.width) ∧
    (img.width ≤ img.height → rotateIfLandscape img = img) ∧
    (rotateIfLandscape img).width ≤ (rotateIfLandscape img).height := by
  unfold rotateIfLandscape
  by_cases h : img.width > img.height
  · rw [if_pos h]
    exact ⟨fun _ => rfl, fun h2 => absurd h (by omega), by simp; omega⟩
  · rw [if_neg h]
    exact ⟨fun h2 => absurd h2 (by omega), fun _ => rfl, by omega⟩

/-- Witness for C7 on concrete inputs: a 300 x 200 landscape image is rotated
to 200 x 300, and a 200 x 300 portrait image is left unchanged. -/
theorem landscape_rotated_to_portrait_witness :
    rotateIfLandscape (PImage.mk 300 200) = PImage.mk 200 300 ∧
    rotateIfLandscape (PImage.mk 200 300) = PImage.mk 200 300 :=
  ⟨(landscape_rotated_to_portrait (PImage.mk 300 200)).1 (by decide),
   (landscape_rotated_to_portrait (PImage.mk 200 300)).2.1 (by decide)⟩

/-- C9: a run on an empty input directory succeeds whether or not the output
directory already existed, the output directory exists afterwards, and no
file is written into it. -/
theorem empty_input_run (outDirWasThere : Bool) (final_size : ℕ × ℕ)
    (border_size : ℕ) :
    merge_images_in_folder [] outDirWasThere final_size border_size =
      some (RunResult.mk [] true) := rfl

/-- C10: the Compositor performs no filesystem writes: whenever it returns, the
filesystem it passes back is exactly the one it was given — reads of the
named files are its only filesystem interaction, and all file creation,
saving and deletion happen in the Batcher. -/
theorem compositor_no_fs_writes (fs : FS) (paths : List FPath)
    (final_size : ℕ × ℕ) (border_size : ℕ) (r : FS × PImage)
    (h : resize_and_merge fs paths final_size border_size = some r) :
    r.1 = fs := by
  rw [resize_and_merge_some fs paths final_size border_size r h]

/-- Witness for C10: on a concrete four-image filesystem the Compositor
succeeds and returns that filesystem unchanged. -/
theorem compositor_no_fs_writes_witness :
    resize_and_merge demoFS demoPaths (1100, 1700) 59 =
      some (demoFS, newImage (1100, 1700)) ∧
    (demoFS, newImage (1100, 1700)).1 = demoFS := by
  have h : resize_and_merge demoFS demoPaths (1100, 1700) 59 =
      some (demoFS, newImage (1100, 1700)) := by decide
  exact ⟨h, compositor_no_fs_writes demoFS demoPaths (1100, 1700) 59 _ h⟩

/-- C4: the page the Compositor returns has exactly the target `final_size`,
whatever the source images' dimensions or aspect ratios, and hence every
page a run leaves on disk as `merged_<k>.jpg` has exactly `final_size`. -/
theorem page_size_invariant :
    (∀ (fs : FS) (paths : List FPath) (final_size : ℕ × ℕ)
      (border_size : ℕ) (r : FS × PImage),
      resize_and_merge fs paths final_size border_size = some r →
      r.2.width = final_size.1 ∧ r.2.height = final_size.2) ∧
    (∀ (entries : List (String × PImage)) (outDirWasThere : Bool)
      (final_size : ℕ × ℕ) (border_size : ℕ) (res : RunResult) (k : ℕ)
      (img : PImage),
      merge_images_in_folder entries outDirWasThere final_size border_size =
        some res →
      fsRead res.files (FPath.merged k) = some img →
      img.width = final_size.1 ∧ img.height = final_size.2) := by
  constructor
  · intro fs paths final_size border_size r h
    rw [resize_and_merge_some fs paths final_size border_size r h]
    exact ⟨rfl, rfl⟩
  · intro entries outDirWasThere final_size border_size res k img hrun hread
    unfold merge_images_in_folder at hrun
    cases hb : batchLoop final_size border_size
        (entries.map (fun e => (FPath.input e.1, e.2)))
        (chunk4 ((globStar (entries.map Prod.fst)).map FPath.input)) 0 with
    | none =>
      rw [hb] at hrun
      simp at hrun
    | some fs2 =>
      rw [hb] at hrun
      simp only [Option.some.injEq] at hrun
      subst hrun
      have hinv0 : ∀ k2 img2,
          fsRead (entries.map (fun e => (FPath.input e.1, e.2)))
            (FPath.merged k2) = some img2 → img2 = newImage final_size := by
        intro k2 img2 h2
        rw [fs0_read_nonInput entries (FPath.merged k2) (by simp)] at h2
        simp at h2
      have := batchLoop_merged_dims final_size border_size _ _ 0 fs2 hb hinv0
        k img hread
      rw [this]
      exact ⟨rfl, rfl⟩

/-- Witness for C4: on a concrete four-image filesystem the Compositor
succeeds and its page has exactly the default 1100 x 1700 size. -/
theorem page_size_invariant_witness :
    resize_and_merge demoFS demoPaths (1100, 1700) 59 =
      some (demoFS, newImage (1100, 1700)) ∧
    (demoFS, newImage (1100, 1700)).2.width = 1100 ∧
    (demoFS, newImage (1100, 1700)).2.height = 1700 := by
  have h : resize_and_merge demoFS demoPaths (1100, 1700) 59 =
      some (demoFS, newImage (1100, 1700)) := by decide
  exact ⟨h, page_size_invariant.1 demoFS demoPaths (1100, 1700) 59 _ h⟩

/-- C2 counterexample: with the default border of 59 pixels, the even-index
(index 0) sub-image built from a 100 x 100 source is not padded on its
bottom edge at all — its bordered height equals its resized height rather
than resized height + 59 — refuting the claim that the same right-and-bottom
padding is applied identically regardless of index parity. -/
theorem even_index_bottom_padding_missing :
    ¬ ((processImage (1100, 1700) 59 0 (PImage.mk 100 100)).height =
        (resizedSize (1100, 1700) 59 0 (PImage.mk 100 100)).2 + 59) := by
  rw [processImage_height]
  simp

/-- C2 amended: every sub-image is padded with border color on its right edge
by the border size and never on its left or top; the bottom edge is padded by
the border size only at odd indices and receives no padding at even indices —
the asymmetric quarter-cell sizing, not identical padding, is what produces
the uniform visual gap. -/
theorem border_padding_by_parity (final_size : ℕ × ℕ) (border_size idx : ℕ)
    (img : PImage) :
    (borderForIndex border_size idx).left = 0 ∧
    (borderForIndex border_size idx).top = 0 ∧
    (borderForIndex border_size idx).right = border_size ∧
    (borderForIndex border_size idx).bottom =
      (if idx % 2 = 0 then 0 else border_size) ∧
    (processImage final_size border_size idx img).width =
      (resizedSize final_size border_size idx img).1 + border_size ∧
    (processImage final_size border_size idx img).height =
      (resizedSize final_size border_size idx img).2 +
        (if idx % 2 = 0 then 0 else border_size) := by
  unfold borderForIndex
  by_cases h : idx % 2 = 0 <;>
    simp [h, processImage_width, processImage_height]

/-- C8 counterexample: a directory entry named `.hidden.jpg` is an entry of
the input directory yet is not among the glob-matched source names — the
glob pattern `*` does filter entries by name, dropping those that begin with
a dot — refuting the claim that no entry is filtered out. -/
theorem hidden_file_not_globbed :
    ".hidden.jpg" ∈ [".hidden.jpg"] ∧
    ".hidden.jpg" ∉ globStar [".hidden.jpg"] := by
  constructor
  · simp
  · intro h
    simp [globStar, List.mem_filter, hiddenName] at h

/-- C8 amended: the Batcher's glob includes exactly the non-hidden entries of
the input directory: every entry whose name does not begin with a dot is
kept, whatever its file type or extension, and every entry whose name begins
with a dot is excluded. -/
theorem glob_includes_exactly_nonhidden (entries : List String) (n : String) :
    n ∈ globStar entries ↔ (n ∈ entries ∧ hiddenName n = false) := by
  simp [globStar, List.mem_filter]

/-- C1 (code bug): a run whose input count is not a multiple of four — here a
single 100 x 150 image with default parameters — terminates with the filler
file `white_temp.jpg` still present in the output directory, holding the
full-page white image.  The removal guard at line 41 tests
`len(paths_slice) < 4` after the very loop that padded `paths_slice` up to
length 4, so the guard is always false and `os.remove` (line 42) never runs,
contradicting the comment above it and the spec. -/
theorem run_leaves_white_temp_behind :
    Option.map (fun r => fsRead r.files FPath.whiteTemp)
      (merge_images_in_folder [("img1.jpg", PImage.mk 100 150)] false
        (1100, 1700) 59) = some (some (newImage (1100, 1700))) := by
  decide

/-- C5: a run over a directory whose glob yields N source files succeeds and
writes exactly ceil(N / 4) composite pages: the file `merged_k.jpg` exists in
the output directory afterwards precisely for the zero-based group indices
k < ceil(N / 4); in particular zero inputs produce zero pages. -/
theorem run_writes_ceil_div_four_pages (entries : List (String × PImage))
    (outDirWasThere : Bool) (final_size : ℕ × ℕ) (border_size : ℕ)
    (hpos : ∀ e ∈ entries, 0 < e.2.width ∧ 0 < e.2.height)
    (hsz : 0 < final_size.1 ∧ 0 < final_size.2) :
    ∃ res, merge_images_in_folder entries outDirWasThere final_size
        border_size = some res ∧
      ∀ k, (fsRead res.files (FPath.merged k)).isSome = true ↔
        k < ((globStar (entries.map Prod.fst)).length + 3) / 4 := by
  have hc : ∀ s ∈ chunk4 ((globStar (entries.map Prod.fst)).map FPath.input),
      s.length ≤ 4 ∧ ∀ p ∈ s, (∃ n, p = FPath.input n) ∧
      (fsRead (entries.map (fun e => (FPath.input e.1, e.2))) p).isSome
        = true := by
    intro s hs
    obtain ⟨hl, hsub⟩ := chunk4_mem _ s hs
    refine ⟨hl, fun p hp => ?_⟩
    obtain ⟨n, hn, rfl⟩ := List.mem_map.mp (hsub p hp)
    refine ⟨⟨n, rfl⟩, ?_⟩
    apply fs0_read_input
    simp only [globStar, List.mem_filter] at hn
    exact hn.1
  have hm : ∀ k, 0 ≤ k →
      fsRead (entries.map (fun e => (FPath.input e.1, e.2)))
        (FPath.merged k) = none := by
    intro k _
    exact fs0_read_nonInput entries (FPath.merged k) (by simp)
  obtain ⟨fs', hloop, hin, hlt, hge⟩ :=
    batchLoop_spec final_size border_size _ _ 0 hc hm
  refine ⟨RunResult.mk fs' true, ?_, ?_⟩
  · unfold merge_images_in_folder
    rw [hloop]
  · intro k
    have hk := hge k (Nat.zero_le k)
    show (fsRead fs' (FPath.merged k)).isSome = true ↔ _
    rw [hk, chunk4_length, List.length_map]
    simp only [Nat.zero_add]
    by_cases hcase : k < ((globStar (entries.map Prod.fst)).length + 3) / 4
    · simp [hcase]
    · simp [hcase]

/-- Witness for C5: a run on five concrete images (the spec's end-to-end
scenario) writes pages exactly for group indices 0 and 1. -/
theorem run_writes_pages_witness :
    ∃ res, merge_images_in_folder
        [("a.jpg", PImage.mk 100 150), ("b.jpg", PImage.mk 200 100),
         ("c.jpg", PImage.mk 120 300), ("d.jpg", PImage.mk 90 90),
         ("e.jpg", PImage.mk 100 100)] false (1100, 1700) 59 = some res ∧
      ∀ k, (fsRead res.files (FPath.merged k)).isSome = true ↔
        k < ((globStar ([("a.jpg", PImage.mk 100 150),
          ("b.jpg", PImage.mk 200 100), ("c.jpg", PImage.mk 120 300),
          ("d.jpg", PImage.mk 90 90),
          ("e.jpg", PImage.mk 100 100)].map Prod.fst)).length + 3) / 4 :=
  run_writes_ceil_div_four_pages _ false (1100, 1700) 59 (by decide)
    (by decide)

/-- C6: for every positively-sized input image and every index, the
Compositor's uniform `min(cell_w / w, cell_h / h)` scale keeps both resized
dimensions within the parity-selected quarter cell, and the integer resize
preserves the post-rotation aspect ratio within rounding tolerance: the two
cross-multiplied products `new_w * h` and `new_h * w` differ by less than
one source dimension in either direction. -/
theorem resize_fits_cell_keeps_aspect (final_size : ℕ × ℕ)
    (border_size idx : ℕ) (img : PImage) (hw : 0 < img.width)
    (hh : 0 < img.height) :
    (resizedSize final_size border_size idx img).1 ≤
      (quarterForIndex (quarterSingle final_size border_size)
        (quarterDouble final_size border_size) idx).1 ∧
    (resizedSize final_size border_size idx img).2 ≤
      (quarterForIndex (quarterSingle final_size border_size)
        (quarterDouble final_size border_size) idx).2 ∧
    (resizedSize final_size border_size idx img).1 *
        (rotateIfLandscape img).height <
      (resizedSize final_size border_size idx img).2 *
        (rotateIfLandscape img).width + (rotateIfLandscape img).width ∧
    (resizedSize final_size border_size idx img).2 *
        (rotateIfLandscape img).width <
      (resizedSize final_size border_size idx img).1 *
        (rotateIfLandscape img).height + (rotateIfLandscape img).height := by
  obtain ⟨h1, h2⟩ := rotateIfLandscape_pos img hw hh
  exact newSize_spec (rotateIfLandscape img)
    (quarterForIndex (quarterSingle final_size border_size)
      (quarterDouble final_size border_size) idx) h1 h2

/-- Witness for C6 at index 1 on a concrete 100 x 100 image with the default
page size and border. -/
theorem resize_fits_witness :
    (resizedSize (1100, 1700) 59 1 (PImage.mk 100 100)).1 ≤
      (quarterForIndex (quarterSingle (1100, 1700) 59)
        (quarterDouble (1100, 1700) 59) 1).1 ∧
    (resizedSize (1100, 1700) 59 1 (PImage.mk 100 100)).2 ≤
      (quarterForIndex (quarterSingle (1100, 1700) 59)
        (quarterDouble (1100, 1700) 59) 1).2 ∧
    (resizedSize (1100, 1700) 59 1 (PImage.mk 100 100)).1 *
        (rotateIfLandscape (PImage.mk 100 100)).height <
      (resizedSize (1100, 1700) 59 1 (PImage.mk 100 100)).2 *
        (rotateIfLandscape (PImage.mk 100 100)).width +
        (rotateIfLandscape (PImage.mk 100 100)).width ∧
    (resizedSize (1100, 1700) 59 1 (PImage.mk 100 100)).2 *
        (rotateIfLandscape (PImage.mk 100 100)).width <
      (resizedSize (1100, 1700) 59 1 (PImage.mk 100 100)).1 *
        (rotateIfLandscape (PImage.mk 100 100)).height +
        (rotateIfLandscape (PImage.mk 100 100)).height :=
  resize_fits_cell_keeps_aspect (1100, 1700) 59 1 (PImage.mk 100 100)
    (by decide) (by decide)

/-- C3 counterexample: with default parameters and a square 100 x 100 source
at index 1, the pasted bordered sub-image covers the point (1100, 0), which
lies beyond the page's right edge (the page spans abscissae below 1100) and
therefore inside none of the four quadrants of the page — the bordered
sub-image does not lie within its assigned quadrant, and PIL clips it when
pasting. -/
theorem odd_region_escapes_page :
    Rect.mem (subRegion (1100, 1700) 59 1 (PImage.mk 100 100)) (1100, 0) ∧
    ¬ Rect.mem (quadrant (1100, 1700) 59 0) (1100, 0) ∧
    ¬ Rect.mem (quadrant (1100, 1700) 59 1) (1100, 0) ∧
    ¬ Rect.mem (quadrant (1100, 1700) 59 2) (1100, 0) ∧
    ¬ Rect.mem (quadrant (1100, 1700) 59 3) (1100, 0) := by
  have hr : resizedSize (1100, 1700) 59 1 (PImage.mk 100 100) = (491, 491) := by
    unfold resizedSize rotateIfLandscape
    rw [if_neg (by decide)]
    rw [newSize_eq _ _ (by decide) (by decide)]
    norm_num [quarterForIndex, quarterSingle, quarterDouble]
  refine ⟨?_, by decide, by decide, by decide, by decide⟩
  simp [Rect.mem, subRegion, pasteAnchor, quarterSingle, quarterDouble,
    processImage_width, processImage_height, hr]

/-- C3 amended: for any group of four positively-sized images, with the
border fitting the page, the four pasted bordered sub-images occupy pairwise
disjoint regions of the plane, every sub-image's resized content (border
padding excluded) lies inside its assigned quadrant, and the even-index
bordered sub-images lie inside their quadrants as well; only the
border padding of odd-index sub-images can overhang the page edge, where the
paste clips it. -/
theorem regions_disjoint_and_content_in_quadrants (final_size : ℕ × ℕ)
    (border_size : ℕ) (i0 i1 i2 i3 : PImage)
    (hb1 : 2 * border_size ≤ final_size.1)
    (hb2 : border_size ≤ final_size.2)
    (h0 : 0 < i0.width ∧ 0 < i0.height)
    (h1 : 0 < i1.width ∧ 0 < i1.height)
    (h2 : 0 < i2.width ∧ 0 < i2.height)
    (h3 : 0 < i3.width ∧ 0 < i3.height) :
    (∀ p : ℕ × ℕ, ¬ (Rect.mem (subRegion final_size border_size 0 i0) p ∧
        Rect.mem (subRegion final_size border_size 1 i1) p)) ∧
    (∀ p : ℕ × ℕ, ¬ (Rect.mem (subRegion final_size border_size 0 i0) p ∧
        Rect.mem (subRegion final_size border_size 2 i2) p)) ∧
    (∀ p : ℕ × ℕ, ¬ (Rect.mem (subRegion final_size border_size 0 i0) p ∧
        Rect.mem (subRegion final_size border_size 3 i3) p)) ∧
    (∀ p : ℕ × ℕ, ¬ (Rect.mem (subRegion final_size border_size 1 i1) p ∧
        Rect.mem (subRegion final_size border_size 2 i2) p)) ∧
    (∀ p : ℕ × ℕ, ¬ (Rect.mem (subRegion final_size border_size 1 i1) p ∧
        Rect.mem (subRegion final_size border_size 3 i3) p)) ∧
    (∀ p : ℕ × ℕ, ¬ (Rect.mem (subRegion final_size border_size 2 i2) p ∧
        Rect.mem (subRegion final_size border_size 3 i3) p)) ∧
    (∀ p : ℕ × ℕ, Rect.mem (contentRegion final_size border_size 0 i0) p →
        Rect.mem (quadrant final_size border_size 0) p) ∧
    (∀ p : ℕ × ℕ, Rect.mem (contentRegion final_size border_size 1 i1) p →
        Rect.mem (quadrant final_size border_size 1) p) ∧
    (∀ p : ℕ × ℕ, Rect.mem (contentRegion final_size border_size 2 i2) p →
        Rect.mem (quadrant final_size border_size 2) p) ∧
    (∀ p : ℕ × ℕ, Rect.mem (contentRegion final_size border_size 3 i3) p →
        Rect.mem (quadrant final_size border_size 3) p) ∧
    (∀ p : ℕ × ℕ, Rect.mem (subRegion final_size border_size 0 i0) p →
        Rect.mem (quadrant final_size border_size 0) p) ∧
    (∀ p : ℕ × ℕ, Rect.mem (subRegion final_size border_size 2 i2) p →
        Rect.mem (quadrant final_size border_size 2) p) := by
  have B0 := resizedSize_le final_size border_size 0 i0 h0.1 h0.2
  have B1 := resizedSize_le final_size border_size 1 i1 h1.1 h1.2
  have B2 := resizedSize_le final_size border_size 2 i2 h2.1 h2.2
  have B3 := resizedSize_le final_size border_size 3 i3 h3.1 h3.2
  simp [quarterForIndex, quarterSingle, quarterDouble] at B0 B1 B2 B3
  refine ⟨?_, ?_, ?_, ?_, ?_, ?_, ?_, ?_, ?_, ?_, ?_, ?_⟩ <;>
    intro p hp <;>
    simp [Rect.mem, subRegion, contentRegion, quadrant, pasteAnchor,
      processImage_width, processImage_height, quarterSingle,
      quarterDouble] at hp ⊢ <;>
    omega

/-- Witness for the amended C3 on a concrete group: four square 100 x 100
images with default parameters. -/
theorem regions_disjoint_witness :
    (∀ p : ℕ × ℕ, ¬ (Rect.mem (subRegion (1100, 1700) 59 0 (PImage.mk 100 100)) p ∧
        Rect.mem (subRegion (1100, 1700) 59 1 (PImage.mk 100 100)) p)) ∧
    (∀ p : ℕ × ℕ, ¬ (Rect.mem (subRegion (1100, 1700) 59 0 (PImage.mk 100 100)) p ∧
        Rect.mem (subRegion (1100, 1700) 59 2 (PImage.mk 100 100)) p)) ∧
    (∀ p : ℕ × ℕ, ¬ (Rect.mem (subRegion (1100, 1700) 59 0 (PImage.mk 100 100)) p ∧
        Rect.mem (subRegion (1100, 1700) 59 3 (PImage.mk 100 100)) p)) ∧
    (∀ p : ℕ × ℕ, ¬ (Rect.mem (subRegion (1100, 1700) 59 1 (PImage.mk 100 100)) p ∧
        Rect.mem (subRegion (1100, 1700) 59 2 (PImage.mk 100 100)) p)) ∧
    (∀ p : ℕ × ℕ, ¬ (Rect.mem (subRegion (1100, 1700) 59 1 (PImage.mk 100 100)) p ∧
        Rect.mem (subRegion (1100, 1700) 59 3 (PImage.mk 100 100)) p)) ∧
    (∀ p : ℕ × ℕ, ¬ (Rect.mem (subRegion (1100, 1700) 59 2 (PImage.mk 100 100)) p ∧
        Rect.mem (subRegion (1100, 1700) 59 3 (PImage.mk 100 100)) p)) ∧
    (∀ p : ℕ × ℕ, Rect.mem (contentRegion (1100, 1700) 59 0 (PImage.mk 100 100)) p →
        Rect.mem (quadrant (1100, 1700) 59 0) p) ∧
    (∀ p : ℕ × ℕ, Rect.mem (contentRegion (1100, 1700) 59 1 (PImage.mk 100 100)) p →
        Rect.mem (quadrant (1100, 1700) 59 1) p) ∧
    (∀ p : ℕ × ℕ, Rect.mem (contentRegion (1100, 1700) 59 2 (PImage.mk 100 100)) p →
        Rect.mem (quadrant (1100, 1700) 59 2) p) ∧
    (∀ p : ℕ × ℕ, Rect.mem (contentRegion (1100, 1700) 59 3 (PImage.mk 100 100)) p →
        Rect.mem (quadrant (1100, 1700) 59 3) p) ∧
    (∀ p : ℕ × ℕ, Rect.mem (subRegion (1100, 1700) 59 0 (PImage.mk 100 100)) p →
        Rect.mem (quadrant (1100, 1700) 59 0) p) ∧
    (∀ p : ℕ × ℕ, Rect.mem (subRegion (1100, 1700) 59 2 (PImage.mk 100 100)) p →
        Rect.mem (quadrant (1100, 1700) 59 2) p) :=
  regions_disjoint_and_content_in_quadrants (1100, 1700) 59
    (PImage.mk 100 100) (PImage.mk 100 100) (PImage.mk 100 100)
    (PImage.mk 100 100) (by decide) (by decide) (by decide) (by decide)
    (by decide) (by decide)
